import Mathlib

/-!
Verification of the fplll `Pruner` (src/fplll/pruner.h) against its
natural-language specification.

The C++ class is polymorphic over a scalar type `FT` providing field
arithmetic together with `log`, `exp`, `sqrt` (spec 4.1).  We embed it
over an arbitrary `LinearOrderedField F`, passing the three transcendental
operations as an explicit record `ScalarOps`, exactly as the source keeps
them as capabilities of `FT`.  Machine `double` round-trips (`get_d` and
construction from `double`) are modelled as the identity, matching the
exact-arithmetic reading of the spec.

Coefficient vectors (`evec` in the source) are lists of length `d`; the
full coefficient array `pr` (a `double*` of length `n`) is a total map
`Nat → F`.  Out-of-bounds array accesses of the C++ (`b[d-1]` with
`d = 0`, which is undefined behaviour on `std::array`) are modelled by
`Option`/`Except` failures with the dedicated error `indexOutOfBounds`.
-/

namespace PrunerSpec

/-- Scalar backend adapter (spec 4.1): the capabilities the templated
`FT` must provide beyond field arithmetic and comparison. -/
structure ScalarOps (F : Type) where
  sqrt : F → F
  log : F → F
  exp : F → F

/-- The synchronous error kinds of spec 7, plus `indexOutOfBounds`
modelling undefined behaviour of an out-of-range `std::array` access. -/
inductive PrunerError where
  | dimensionTooSmall
  | basisNotLoaded
  | infeasibleCoefficients
  | indexOutOfBounds
deriving DecidableEq

deriving instance DecidableEq for Except

/-- The state of a `Pruner<FT>` object: the fields of the C++ class.
`r`, `pv` and the two constant tables are total maps standing for the
fixed-capacity arrays `vec`/`array<FT, PRUNER_MAX_N>`; indices beyond the
loaded range are never read by the algorithms.  The cached `one` and
`minus_one` members are dropped (they are literals here).  The source
field `shell_ratio` is named `shell_dx` here. -/
structure Pruner (F : Type) where
  n : Nat
  d : Nat
  r : Nat → F
  pv : Nat → F
  renormalization_factor : F
  preproc_cost : F
  target_success_proba : F
  enumeration_radius : F
  epsilon : F
  min_step : F
  min_cf_decrease : F
  step_factor : F
  shell_dx : F
  symmetry_factor : F
  tabulated_factorial : Nat → F
  tabulated_ball_vol : Nat → F

variable {F : Type} [LinearOrderedField F]

/-- The clamp body of `enforce`'s second loop:
`if (b[i] > 1) b[i] = 1; if (b[i] <= .1) b[i] = .1;`. -/
def clampOne (x : F) : F :=
  if 1 < x then 1 else if x ≤ 1 / 10 then 1 / 10 else x

/-- `for (i = j; i < d - 1; ++i) if (b[i+1] < b[i]) { b[i+1] = b[i]; status = 1; }`
with `prev` the current (already updated) value of `b[i]` and the list the
entries `b[i+1..]`.  Returns the updated tail plus the change flag. -/
def sweepRgo (prev : F) : List F → List F × Bool
  | [] => ([], false)
  | y :: ys =>
    let y2 := if y < prev then prev else y
    let rest := sweepRgo y2 ys
    (y2 :: rest.1, (decide (y < prev) || rest.2))

/-- The right sweep acting on the segment `b[j..d-1]` (its head `b[j]` is
never written by this loop). -/
def sweepR : List F → List F × Bool
  | [] => ([], false)
  | x :: xs =>
    let rest := sweepRgo x xs
    (x :: rest.1, rest.2)

/-- `for (i = j - 1; i >= 0; --i) if (b[i+1] < b[i]) { b[i] = b[i+1]; status = 1; }`
with `next` the current (already updated) value of `b[i+1]` and the list
the entries `b[j-1], b[j-2], …, b[0]` (the prefix reversed, since the loop
walks downward). -/
def sweepLgo (next : F) : List F → List F × Bool
  | [] => ([], false)
  | y :: ys =>
    let y2 := if next < y then next else y
    let rest := sweepLgo y2 ys
    (y2 :: rest.1, (decide (next < y) || rest.2))

/-- `Pruner::enforce(b, j)` on a nonempty vector: pin `b[d-1]` to 1
(recording a change only when it was `< 1`), clamp every entry to
`[0.1, 1]` (recording a change only when clamping down to 1), then the
right sweep from `j` and the left sweep from `j-1`.  Returns the new
vector and the status flag. -/
def enforceCore (b : List F) (j : Nat) : List F × Bool :=
  let d := b.length
  let f1 := decide (b.getD (d - 1) 0 < 1)
  let b1 := b.set (d - 1) 1
  let f2 := b1.any fun x => decide (1 < x)
  let b2 := b1.map clampOne
  let rs := sweepR (b2.drop j)
  let ls := sweepLgo (rs.1.headD 0) (b2.take j).reverse
  (ls.1.reverse ++ rs.1, (f1 || f2 || rs.2 || ls.2))

/-- `Pruner::enforce`.  On an empty vector (`d = 0`) the C++ executes
`b[d - 1] = 1`, i.e. `b[-1] = 1`, an out-of-bounds write: modelled as
`none`. -/
def enforce (b : List F) (j : Nat) : Option (List F × Bool) :=
  match b with
  | [] => none
  | _ :: _ => some (enforceCore b j)

/-- The Horner loop of `Pruner::eval_poly`:
`for (i = ld; i >= 0; --i) { acc = acc * x; acc = acc + p[i]; }`,
recursing over the loop counter with explicit accumulator. -/
def horner (p : Nat → F) (x : F) : Nat → F → F
  | 0, acc => acc * x + p 0
  | i + 1, acc => horner p x i (acc * x + p (i + 1))

/-- `Pruner::eval_poly(ld, p, x)`. -/
def eval_poly (ld : Nat) (p : Nat → F) (x : F) : F := horner p x ld 0

/-- `Pruner::integrate_poly(ld, p)`: `p[i+1] = p[i] / (i+1)` for
`i = ld … 0` (the reads happen before the writes since the loop walks
down), then `p[0] = 0`.  Coefficients above the new degree `ld + 1` are
left as they were. -/
def integrate_poly (ld : Nat) (p : Nat → F) : Nat → F := fun k =>
  if k = 0 then 0
  else if k ≤ ld + 1 then p (k - 1) / (k : F)
  else p k

/-- One iteration of the `relative_volume` loop body at abscissa `x`:
integrate, bump the degree, then `p[0] = -eval_poly(ld, p, x)`. -/
def relvolStep (x : F) (s : (Nat → F) × Nat) : (Nat → F) × Nat :=
  let q := integrate_poly s.2 s.1
  let ld := s.2 + 1
  (fun k => if k = 0 then -eval_poly ld q x else q k, ld)

/-- The loop `for (i = rd - 1; i >= 0; --i)` of `relative_volume`,
recursing over the remaining iteration count (index `i` first). -/
def relvolLoop (bf : Nat → F) (brd1 : F) : Nat → (Nat → F) × Nat → (Nat → F) × Nat
  | 0, s => s
  | i + 1, s => relvolLoop bf brd1 i (relvolStep (bf i / brd1) s)

/-- `Pruner::relative_volume(rd, b)`.  The working polynomial starts as
the constant 1 (unread higher coefficients modelled as 0). -/
def relative_volume (P : Pruner F) (rd : Nat) (b : List F) : F :=
  let bf := fun i => b.getD i 0
  let s := relvolLoop bf (bf (rd - 1)) rd (fun k => if k = 0 then (1 : F) else 0, 0)
  if rd % 2 = 1 then -s.1 0 * P.tabulated_factorial rd
  else s.1 0 * P.tabulated_factorial rd

/-- `Pruner::svp_success_proba(b)` (spec 4.8).  Note that it involves no
square roots or logarithms: it is pure field arithmetic. -/
def svp_success_proba (P : Pruner F) (b : List F) : F :=
  let dx := P.shell_dx
  let bmdb := b.map fun x => if 1 < x / (dx * dx) then 1 else x / (dx * dx)
  let vol := relative_volume P P.d b
  let dxn := dx ^ (2 * P.d)
  let dvol := dxn * relative_volume P P.d bmdb - vol
  dvol / (dxn - 1)

/-- `Pruner::cost(b)` (spec 4.7): odd-level relative volumes, even-level
geometric interpolation, then the `2d`-term sum divided by the symmetry
factor. -/
def cost (S : ScalarOps F) (P : Pruner F) (b : List F) : F :=
  let rvOdd := fun i => relative_volume P (i + 1) b
  let rv : Nat → F := fun k =>
    if k = 0 then 1
    else if k % 2 = 1 then rvOdd ((k - 1) / 2)
    else S.sqrt (rvOdd (k / 2 - 1) * rvOdd (k / 2))
  let nr := S.sqrt (P.enumeration_radius * P.renormalization_factor)
  let total := ∑ i ∈ Finset.range (2 * P.d),
    nr ^ (1 + i) * rv i * P.tabulated_ball_vol (i + 1) *
      S.sqrt (b.getD (i / 2) 0 ^ (1 + i)) / P.pv i
  total / P.symmetry_factor

/-- `Pruner::cost_factor(b)` (spec 4.9). -/
def cost_factor (S : ScalarOps F) (P : Pruner F) (b : List F) : F :=
  let sp := svp_success_proba P b
  if P.target_success_proba ≤ sp then cost S P b
  else
    let trials := S.log (1 - P.target_success_proba) / S.log (1 - sp)
    cost S P b * trials + P.preproc_cost * (trials - 1)

/-- `Pruner::cost_factor_derivative(b, res)` (spec 4.10): `res[d-1] = 0`,
and for `i < d - 1` a centered finite difference of `log cost_factor`
through the pivoted projection `enforce(·, i)`. -/
def cost_factor_derivative (S : ScalarOps F) (P : Pruner F) (b : List F) : List F :=
  (List.range P.d).map fun i =>
    if i = P.d - 1 then 0
    else
      let bm := (enforceCore (b.set i (b.getD i 0 * (1 - P.epsilon))) i).1
      let bp := (enforceCore (b.set i (b.getD i 0 * (1 + P.epsilon))) i).1
      (S.log (cost_factor S P bm) - S.log (cost_factor S P bp)) / P.epsilon

/-- The extraction loop of `load_prunning_coeffs`:
`b[i] = pr[n - 1 - 2*i]` for `i < d`. -/
def extract_coeffs (P : Pruner F) (pr : Nat → F) : List F :=
  (List.range P.d).map fun i => pr (P.n - 1 - 2 * i)

/-- `Pruner::load_prunning_coeffs(pr, b)`: extract the compact vector,
run `enforce`, and fail with `infeasibleCoefficients` when a change is
reported.  On success the (enforced) vector is returned. -/
def load_prunning_coeffs (P : Pruner F) (pr : Nat → F) : Except PrunerError (List F) :=
  match enforce (extract_coeffs P pr) 0 with
  | none => .error .indexOutOfBounds
  | some s => if s.2 then .error .infeasibleCoefficients else .ok s.1

/-- `Pruner::check_loaded_basis()`.  NOTE: this member is defined in the
source but never called by any of the public query methods. -/
def check_loaded_basis (P : Pruner F) : Except PrunerError Nat :=
  if P.d ≠ 0 then .ok 0 else .error .basisNotLoaded

/-- Pointwise update of a coefficient array, modelling `pr[k] = v`. -/
def upd (f : Nat → F) (k : Nat) (v : F) : Nat → F :=
  fun m => if m = k then v else f m

/-- The mirror loop of `save_prunning_coeffs`, processing `i = 0 … m-1`:
`pr[n - 1 - 2*i] = b[i]; pr[n - 2 - 2*i] = b[i];`. -/
def saveAux (P : Pruner F) (b : List F) (pr : Nat → F) : Nat → Nat → F
  | 0 => pr
  | i + 1 =>
    upd (upd (saveAux P b pr i) (P.n - 1 - 2 * i) (b.getD i 0)) (P.n - 2 - 2 * i) (b.getD i 0)

/-- `Pruner::save_prunning_coeffs(pr, b)`: mirror each `b[i]` into the two
corresponding positions, then `pr[0] = 1`. -/
def save_prunning_coeffs (P : Pruner F) (pr : Nat → F) (b : List F) : Nat → F :=
  upd (saveAux P b pr P.d) 0 1

/-- `Pruner::get_svp_success_proba(pr)`. -/
def get_svp_success_proba (P : Pruner F) (pr : Nat → F) : Except PrunerError F :=
  (load_prunning_coeffs P pr).map fun b => svp_success_proba P b

/-- `Pruner::get_enum_cost(pr)`. -/
def get_enum_cost (S : ScalarOps F) (P : Pruner F) (pr : Nat → F) : Except PrunerError F :=
  (load_prunning_coeffs P pr).map fun b => cost S P b

/-- `Pruner::get_enum_cost_with_retrials(pr)`. -/
def get_enum_cost_with_retrials (S : ScalarOps F) (P : Pruner F) (pr : Nat → F) :
    Except PrunerError F :=
  (load_prunning_coeffs P pr).map fun b => cost_factor S P b

/-- `Pruner::init_prunning_coeffs(b)`: `b[i] = .1 + i/d`, then `enforce`
(whose status is ignored). -/
def init_prunning_coeffs (P : Pruner F) : Option (List F) :=
  (enforce ((List.range P.d).map fun i => 1 / 10 + (i : F) / (P.d : F)) 0).map Prod.fst

/-- The line-search loop of `Pruner::improve`.  In the source the
candidate accumulator `newb` coincides with `b` after every acceptance
(enforce happens in place before the test, and `b = newb` on acceptance),
so the state is the accepted vector `b`, its cost factor `cf`, the step,
and the acceptance counter `i`.  The unbounded `for (i = 0;;++i)` is
given explicit fuel; exhausting the fuel exits the loop. -/
def lineSearch (S : ScalarOps F) (P : Pruner F) (grad : List F) :
    Nat → List F → F → F → Nat → List F × F × Nat
  | 0, b, cf, _, i => (b, cf, i)
  | fuel + 1, b, cf, step, i =>
    let cand := (enforceCore (List.zipWith (fun x g => x + step * g) b grad) 0).1
    let ncf := cost_factor S P cand
    if cf ≤ ncf then (b, cf, i)
    else lineSearch S P grad fuel cand ncf (step * P.step_factor) (i + 1)

/-- `Pruner::improve(b)` (spec 4.11): returns the updated vector together
with the C++ return value. -/
def improve (S : ScalarOps F) (P : Pruner F) (fuel : Nat) (b : List F) : List F × Nat :=
  let cf := cost_factor S P b
  let grad := cost_factor_derivative S P b
  let norm := S.sqrt ((grad.map fun g => g * g).sum / ((1 : F) * (P.d : F)))
  if norm ≤ 0 then (b, 0)
  else
    let grad2 := grad.map fun g => g / norm
    let res := lineSearch S P grad2 fuel b cf P.min_step 0
    if cf * P.min_cf_decrease < res.2.1 then (res.1, 0) else (res.1, res.2.2)

/-- `Pruner::descent(b)`: `while (improve(b)) {}`, with explicit fuel for
the outer loop. -/
def descent (S : ScalarOps F) (P : Pruner F) (fuelInner : Nat) : Nat → List F → List F
  | 0, b => b
  | fo + 1, b =>
    let res := improve S P fuelInner b
    if res.2 = 0 then res.1 else descent S P fuelInner fo res.1

/-- `Pruner::optimize_pruning_coeffs(pr, reset)`. -/
def optimize_pruning_coeffs (S : ScalarOps F) (P : Pruner F) (fo fi : Nat)
    (pr : Nat → F) (reset : Bool) : Except PrunerError (Nat → F) :=
  let eb : Except PrunerError (List F) :=
    if reset then
      match init_prunning_coeffs P with
      | none => .error .indexOutOfBounds
      | some b => .ok b
    else load_prunning_coeffs P pr
  eb.map fun b => save_prunning_coeffs P pr (descent S P fi fo b)

/-- `Pruner::load_basis_shape(dim, gso_sq_norms)` (spec 4.3): reverse,
renormalize, accumulate partial volumes.  `d = 0` throws
(`DimensionTooSmall`), modelled as `none`. -/
def load_basis_shape (S : ScalarOps F) (P : Pruner F) (dim : Nat) (gso : Nat → F) :
    Option (Pruner F) :=
  let n := dim
  let d := n / 2
  if d = 0 then none
  else
    let logvol := ∑ i ∈ Finset.range n, S.log (gso (n - 1 - i))
    let rf := S.exp (logvol / (-(n : F)))
    let rr := fun i => gso (n - 1 - i) * rf
    let pvv := fun k => ∏ i ∈ Finset.range (k + 1), S.sqrt (rr i)
    some { P with n := n, d := d, r := rr, pv := pvv, renormalization_factor := rf }

/-- The `Pruner<FT>` constructor: `n = d = 0`, the documented parameter
defaults, and the two constant tables.  The uninitialized members
(`r`, `pv`, `renormalization_factor`) are set to 0 here; they are never
read before `load_basis_shape`. -/
def mkPruner (S : ScalarOps F) (fact ballv : Nat → F) : Pruner F where
  n := 0
  d := 0
  r := fun _ => 0
  pv := fun _ => 0
  renormalization_factor := 0
  preproc_cost := 0
  target_success_proba := 9 / 10
  enumeration_radius := 0
  epsilon := 1 / 2 ^ 13
  min_step := 1 / 2 ^ 12
  min_cf_decrease := 9999 / 10000
  step_factor := S.sqrt 2
  shell_dx := 199 / 200
  symmetry_factor := 2
  tabulated_factorial := fact
  tabulated_ball_vol := ballv

/-- Modelled from the spec: the factorial constant table
(`factorial.const` in the source tree is not under src/); spec 4.2 states
`factorial[i] = i!`. -/
def factTable (F : Type) [LinearOrderedField F] : Nat → F :=
  fun i => (Nat.factorial i : F)

/-- Modelled from the spec: the unit-ball volume constant table
(`ballvol.const` in the source tree is not under src/); spec 4.2 states
`unit_ball_volume[i]` is the volume of the unit i-dimensional Euclidean
ball, given here by the classical recurrence `V_0 = 1`, `V_1 = 2`,
`V_i = (2π/i)·V_{i-2}`. -/
noncomputable def ballVol : Nat → ℝ
  | 0 => 1
  | 1 => 2
  | i + 2 => 2 * Real.pi / ((i : ℝ) + 2) * ballVol i

/-- The real scalar backend. -/
noncomputable def realOps : ScalarOps ℝ := ⟨Real.sqrt, Real.log, Real.exp⟩

/-! ### Lemmas about the clamp and the two monotonicity sweeps -/

theorem clampOne_mem (x : F) : 1 / 10 ≤ clampOne x ∧ clampOne x ≤ 1 := by
  unfold clampOne
  split
  · norm_num
  · split
    · norm_num
    · constructor <;> linarith

theorem clampOne_id {x : F} (h1 : 1 / 10 ≤ x) (h2 : x ≤ 1) : clampOne x = x := by
  unfold clampOne
  split
  · linarith
  · split
    · linarith
    · rfl

theorem clampOne_one : clampOne (1 : F) = 1 := clampOne_id (by norm_num) le_rfl

theorem getLast?_cons_ne_nil {α : Type} (a : α) {l : List α} (h : l ≠ []) :
    (a :: l).getLast? = l.getLast? := by
  cases l with
  | nil => exact absurd rfl h
  | cons b bs => exact List.getLast?_cons_cons

theorem sweepRgo_cons (prev y : F) (ys : List F) :
    (sweepRgo prev (y :: ys)).1
      = (if y < prev then prev else y) :: (sweepRgo (if y < prev then prev else y) ys).1 := rfl

theorem sweepRgo_length (prev : F) (l : List F) :
    (sweepRgo prev l).1.length = l.length := by
  induction l generalizing prev with
  | nil => rfl
  | cons y ys ih => simp [sweepRgo, ih]

theorem sweepRgo_mem (prev : F) (l : List F) :
    ∀ y ∈ (sweepRgo prev l).1, y = prev ∨ y ∈ l := by
  induction l generalizing prev with
  | nil => simp [sweepRgo]
  | cons z zs ih =>
    intro y hy
    simp only [sweepRgo, List.mem_cons] at hy
    rcases hy with hy | hy
    · subst hy
      split
      · left; rfl
      · right; simp
    · rcases ih _ y hy with h | h
      · revert h
        split
        · intro h; left; exact h
        · intro h; right; simp [h]
      · right; simp [h]

theorem sweepRgo_chain' (prev : F) (l : List F) :
    List.Chain' (· ≤ ·) (prev :: (sweepRgo prev l).1) := by
  induction l generalizing prev with
  | nil => simp [sweepRgo]
  | cons z zs ih =>
    simp only [sweepRgo]
    rw [List.chain'_cons]
    constructor
    · split <;> simp_all
    · exact ih _

theorem sweepRgo_getLast {c : F} (prev : F) (l : List F) (hne : l ≠ [])
    (hl : ∀ x ∈ l, x ≤ c) (hp : prev ≤ c) (hlast : l.getLast? = some c) :
    (sweepRgo prev l).1.getLast? = some c := by
  induction l generalizing prev with
  | nil => exact absurd rfl hne
  | cons z zs ih =>
    cases zs with
    | nil =>
      simp only [List.getLast?_singleton, Option.some.injEq] at hlast
      subst hlast
      simp only [sweepRgo]
      have : ¬ z < prev := not_lt.mpr hp
      simp [this, List.getLast?_singleton]
    | cons w ws =>
      have hz : z ≤ c := hl z (by simp)
      have hzs : ∀ x ∈ w :: ws, x ≤ c := fun x hx => hl x (by simp [hx])
      have hlast' : (w :: ws).getLast? = some c := by
        rwa [List.getLast?_cons_cons] at hlast
      have h2 : (if z < prev then prev else z) ≤ c := by split <;> assumption
      have hrec := ih (if z < prev then prev else z) (by simp) hzs h2 hlast'
      have hne2 : (sweepRgo (if z < prev then prev else z) (w :: ws)).1 ≠ [] := by
        intro hnil
        have hlen := sweepRgo_length (if z < prev then prev else z) (w :: ws)
        rw [hnil] at hlen
        simp at hlen
      rw [sweepRgo_cons, getLast?_cons_ne_nil _ hne2]
      exact hrec

theorem sweepRgo_id {prev : F} {l : List F}
    (h : List.Chain' (· ≤ ·) (prev :: l)) : sweepRgo prev l = (l, false) := by
  induction l generalizing prev with
  | nil => rfl
  | cons z zs ih =>
    rw [List.chain'_cons] at h
    have hnlt : ¬ z < prev := not_lt.mpr h.1
    simp [sweepRgo, hnlt, ih h.2]

theorem sweepLgo_length (next : F) (l : List F) :
    (sweepLgo next l).1.length = l.length := by
  induction l generalizing next with
  | nil => rfl
  | cons y ys ih => simp [sweepLgo, ih]

theorem sweepLgo_mem (next : F) (l : List F) :
    ∀ y ∈ (sweepLgo next l).1, y = next ∨ y ∈ l := by
  induction l generalizing next with
  | nil => simp [sweepLgo]
  | cons z zs ih =>
    intro y hy
    simp only [sweepLgo, List.mem_cons] at hy
    rcases hy with hy | hy
    · subst hy
      split
      · left; rfl
      · right; simp
    · rcases ih _ y hy with h | h
      · revert h
        split
        · intro h; left; exact h
        · intro h; right; simp [h]
      · right; simp [h]

theorem sweepLgo_chain' (next : F) (l : List F) :
    List.Chain' (fun a b => b ≤ a) (next :: (sweepLgo next l).1) := by
  induction l generalizing next with
  | nil => simp [sweepLgo]
  | cons z zs ih =>
    simp only [sweepLgo]
    rw [List.chain'_cons]
    constructor
    · split <;> simp_all
    · exact ih _

theorem sweepLgo_id {next : F} {l : List F}
    (h : List.Chain' (fun a b => b ≤ a) (next :: l)) : sweepLgo next l = (l, false) := by
  induction l generalizing next with
  | nil => rfl
  | cons z zs ih =>
    rw [List.chain'_cons] at h
    have hnlt : ¬ next < z := not_lt.mpr h.1
    simp [sweepLgo, hnlt, ih h.2]

/-! ### The feasibility invariants established by `enforce` -/

theorem map_id_of {f : F → F} {l : List F} (h : ∀ x ∈ l, f x = x) : l.map f = l := by
  induction l with
  | nil => rfl
  | cons z zs ih =>
    simp only [List.map_cons, h z (by simp), ih fun x hx => h x (by simp [hx]), List.cons.injEq,
      and_self]

theorem getD_last_of_getLast? {b : List F} (h : b.getLast? = some 1) :
    b.getD (b.length - 1) 0 = 1 := by
  rw [List.getD_eq_getElem?_getD, ← List.getLast?_eq_getElem?, h]
  rfl

theorem set_last_of_getLast? {b : List F} (h : b.getLast? = some 1) :
    b.set (b.length - 1) 1 = b := by
  have hne : b ≠ [] := by rintro rfl; simp at h
  apply List.ext_getElem
  · simp
  · intro i h1 h2
    rw [List.getElem_set]
    split
    · next heq =>
      subst heq
      have := h
      rw [List.getLast?_eq_getElem?, List.getElem?_eq_getElem h2] at this
      exact (Option.some.injEq _ _ ▸ this).symm
    · rfl

/-- The shape of `enforce`'s result: left-swept reversed prefix glued to
the right-swept suffix of the pinned-and-clamped vector. -/
theorem enforceCore_fst (b : List F) (j : Nat) :
    (enforceCore b j).1
      = (sweepLgo ((sweepR (((b.set (b.length - 1) 1).map clampOne).drop j)).1.headD 0)
            (((b.set (b.length - 1) 1).map clampOne).take j).reverse).1.reverse
          ++ (sweepR (((b.set (b.length - 1) 1).map clampOne).drop j)).1 := rfl

theorem sweepR_length (l : List F) : (sweepR l).1.length = l.length := by
  cases l with
  | nil => rfl
  | cons x xs => simp [sweepR, sweepRgo_length]

theorem getLast?_map (f : F → F) (l : List F) : (l.map f).getLast? = l.getLast?.map f := by
  induction l with
  | nil => rfl
  | cons z zs ih =>
    cases zs with
    | nil => rfl
    | cons w ws => simpa [List.getLast?_cons_cons] using ih

theorem getLast?_set_last (b : List F) (hne : b ≠ []) (v : F) :
    (b.set (b.length - 1) v).getLast? = some v := by
  have hl : 0 < b.length := List.length_pos.mpr hne
  rw [List.getLast?_eq_getElem?, List.length_set,
    List.getElem?_eq_getElem (by rw [List.length_set]; omega), List.getElem_set]
  simp

theorem enforceCore_length (b : List F) (j : Nat) :
    (enforceCore b j).1.length = b.length := by
  rw [enforceCore_fst]
  simp [sweepLgo_length, sweepR_length]
  omega

/-- After `enforce`, the three feasibility invariants of spec 3 hold:
last coefficient 1, all entries in `[0.1, 1]`, non-decreasing. -/
theorem enforceCore_invariants (b : List F) (j : Nat) (hne : b ≠ []) (hj : j < b.length) :
    (enforceCore b j).1.getLast? = some 1
    ∧ (∀ x ∈ (enforceCore b j).1, 1 / 10 ≤ x ∧ x ≤ 1)
    ∧ List.Chain' (· ≤ ·) (enforceCore b j).1 := by
  rw [enforceCore_fst]
  set b1 := b.set (b.length - 1) 1 with hb1
  set b2 := b1.map clampOne with hb2
  have hlen2 : b2.length = b.length := by simp [hb2, hb1]
  -- membership bounds for the clamped vector
  have hmem2 : ∀ x ∈ b2, 1 / 10 ≤ x ∧ x ≤ 1 := by
    intro x hx
    rw [hb2, List.mem_map] at hx
    obtain ⟨y, -, rfl⟩ := hx
    exact clampOne_mem y
  -- last entry of the clamped vector is 1
  have hlast1 : b1.getLast? = some 1 := by
    rw [hb1]
    exact getLast?_set_last b hne 1
  have hlast2 : b2.getLast? = some 1 := by
    rw [hb2, getLast?_map, hlast1]
    simp [clampOne_one]
  -- the suffix being swept right
  have hdropne : b2.drop j ≠ [] := by
    have : (b2.drop j).length = b.length - j := by simp [hlen2]
    intro hnil
    rw [hnil] at this
    simp at this
    omega
  obtain ⟨x, xs, hdx⟩ := List.exists_cons_of_ne_nil hdropne
  have hxmem : x ∈ b2 := List.drop_subset j b2 (by rw [hdx]; exact List.mem_cons_self x xs)
  have hxsmem : ∀ y ∈ xs, y ∈ b2 := fun y hy =>
    List.drop_subset j b2 (by rw [hdx]; exact List.mem_cons_of_mem x hy)
  have hrs1 : (sweepR (b2.drop j)).1 = x :: (sweepRgo x xs).1 := by rw [hdx]; rfl
  have hhead : (sweepR (b2.drop j)).1.headD 0 = x := by rw [hrs1]; rfl
  -- last entry of the drop is 1
  have hdlast : (b2.drop j).getLast? = some 1 := by
    conv at hlast2 => rw [← List.take_append_drop j b2]
    rwa [List.getLast?_append_of_ne_nil _ hdropne] at hlast2
  -- last entry of the right sweep is 1
  have hrslast : (sweepR (b2.drop j)).1.getLast? = some 1 := by
    rw [hrs1]
    cases hxs : xs with
    | nil =>
      rw [hxs] at hdx
      rw [hdx] at hdlast
      simp only [List.getLast?_singleton] at hdlast ⊢
      simpa [sweepRgo] using hdlast
    | cons w ws =>
      subst hxs
      have hxslast : (w :: ws).getLast? = some 1 := by
        rw [hdx, List.getLast?_cons_cons] at hdlast
        exact hdlast
      have hrg := sweepRgo_getLast x (w :: ws) (by simp)
        (fun y hy => (hmem2 y (hxsmem y hy)).2) (hmem2 x hxmem).2 hxslast
      have hne2 : (sweepRgo x (w :: ws)).1 ≠ [] := by
        intro hnil
        have := sweepRgo_length x (w :: ws)
        rw [hnil] at this
        simp at this
      rw [getLast?_cons_ne_nil _ hne2]
      exact hrg
  -- the left sweep
  have hlschain := sweepLgo_chain' ((sweepR (b2.drop j)).1.headD 0) (b2.take j).reverse
  have hlsmem : ∀ y ∈ (sweepLgo ((sweepR (b2.drop j)).1.headD 0) (b2.take j).reverse).1,
      y ∈ b2 := by
    intro y hy
    rcases sweepLgo_mem _ _ y hy with h | h
    · rw [h, hhead]; exact hxmem
    · exact List.take_subset j b2 (List.mem_reverse.mp h)
  refine ⟨?_, ?_, ?_⟩
  · -- invariant 1: last = 1
    rw [List.getLast?_append_of_ne_nil _ (by rw [hrs1]; simp)]
    exact hrslast
  · -- invariant 2: bounds
    intro y hy
    rcases List.mem_append.mp hy with h | h
    · exact hmem2 y (hlsmem y (List.mem_reverse.mp h))
    · rw [hrs1] at h
      rcases List.mem_cons.mp h with h | h
      · exact h ▸ hmem2 x hxmem
      · rcases sweepRgo_mem x xs y h with h2 | h2
        · exact h2 ▸ hmem2 x hxmem
        · exact hmem2 y (hxsmem y h2)
  · -- invariant 3: non-decreasing
    apply List.Chain'.append
    · rw [List.chain'_reverse]
      exact hlschain.tail
    · rw [hrs1]
      exact sweepRgo_chain' x xs
    · intro a ha y hy
      rw [List.getLast?_reverse] at ha
      have := (List.chain'_cons'.mp hlschain).1 a ha
      rw [hhead] at this
      rw [hrs1] at hy
      simp only [List.head?_cons, Option.mem_def, Option.some.injEq] at hy
      rw [← hy]
      exact this

/-- On a vector already satisfying the three feasibility invariants,
`enforce` changes nothing and reports status 0 (for any pivot). -/
theorem enforceCore_of_feasible (b : List F) (j : Nat) (hne : b ≠ []) (hj : j < b.length)
    (hmem : ∀ x ∈ b, 1 / 10 ≤ x ∧ x ≤ 1) (hlast : b.getLast? = some 1)
    (hchain : List.Chain' (· ≤ ·) b) :
    enforceCore b j = (b, false) := by
  have hgd : b.getD (b.length - 1) 0 = 1 := getD_last_of_getLast? hlast
  have hset : b.set (b.length - 1) 1 = b := set_last_of_getLast? hlast
  have hany : (b.any fun x => decide (1 < x)) = false := by
    rw [List.any_eq_false]
    intro x hx
    simp only [decide_eq_true_eq, not_lt]
    exact (hmem x hx).2
  have hmapc : b.map clampOne = b :=
    map_id_of fun x hx => clampOne_id (hmem x hx).1 (hmem x hx).2
  -- the suffix is already sorted, so the right sweep is the identity
  have hdropne : b.drop j ≠ [] := by
    intro hnil
    have : (b.drop j).length = b.length - j := by simp
    rw [hnil] at this
    simp at this
    omega
  obtain ⟨x, xs, hdx⟩ := List.exists_cons_of_ne_nil hdropne
  have hdchain : List.Chain' (· ≤ ·) (x :: xs) := hdx ▸ hchain.drop j
  have hsweepR : sweepR (b.drop j) = (b.drop j, false) := by
    rw [hdx]
    simp only [sweepR, sweepRgo_id hdchain]
  -- the prefix with the pivot appended is sorted, so the left sweep is the identity
  have hsplit : b.take j ++ b.drop j = b := List.take_append_drop j b
  have hchain' : List.Chain' (· ≤ ·) (b.take j ++ b.drop j) := by rw [hsplit]; exact hchain
  obtain ⟨hct, hcd, hbound⟩ := List.chain'_append.mp hchain'
  have hheadx : (b.drop j).head? = some x := by rw [hdx]; rfl
  have hchtx : List.Chain' (· ≤ ·) (b.take j ++ [x]) := by
    apply hct.append (List.chain'_singleton x)
    intro a ha y hy
    simp only [List.head?_cons, Option.mem_def, Option.some.injEq] at hy
    subst hy
    exact hbound a ha x (by rw [hheadx]; rfl)
  have hchrev : List.Chain' (fun a c => c ≤ a) (x :: (b.take j).reverse) := by
    have := List.chain'_reverse.mpr hchtx
    simpa [List.reverse_append] using this
  have hsweepL : sweepLgo x (b.take j).reverse = ((b.take j).reverse, false) :=
    sweepLgo_id hchrev
  have hheadD : (b.drop j).headD 0 = x := by rw [hdx]; rfl
  simp only [enforceCore, hset, hmapc, hany, hsweepR, hheadD, hsweepL, hgd]
  rw [List.reverse_reverse, hsplit]
  simp
theorem getD_eq_getElem (l : List F) {i : Nat} (hi : i < l.length) :
    l.getD i 0 = l[i] := by
  rw [List.getD_eq_getElem?_getD, List.getElem?_eq_getElem hi]
  rfl

theorem getD_append_length {α : Type} (l₁ l₂ : List α) (d : α) :
    (l₁ ++ l₂).getD l₁.length d = l₂.getD 0 d := by
  induction l₁ with
  | nil => rfl
  | cons a t ih => simpa using ih

theorem getD_append_of_length {α : Type} {l₁ : List α} {j : Nat} (h : l₁.length = j)
    (l₂ : List α) (d : α) : (l₁ ++ l₂).getD j d = l₂.getD 0 d := by
  subst h
  exact getD_append_length l₁ l₂ d

/-- C2: for every compact vector `b` with arbitrary entries and every pivot
`j` with `0 ≤ j ≤ d-1` (`d ≥ 1`), the call `enforce(b, j)` returns, and
afterwards `b` satisfies all three feasibility invariants: `b[d-1] = 1`,
`0.1 ≤ b[i] ≤ 1` for every `i`, and `b` non-decreasing. -/
theorem claim_C2_enforce_establishes_invariants (b : List F) (j : Nat)
    (hne : b ≠ []) (hj : j < b.length) :
    enforce b j = some (enforceCore b j)
    ∧ (enforceCore b j).1.getLast? = some 1
    ∧ (∀ x ∈ (enforceCore b j).1, 1 / 10 ≤ x ∧ x ≤ 1)
    ∧ List.Chain' (· ≤ ·) (enforceCore b j).1 := by
  obtain ⟨x, xs, rfl⟩ := List.exists_cons_of_ne_nil hne
  exact ⟨rfl, enforceCore_invariants _ j hne hj⟩

/-- Witness for C2 at the concrete input `b = [2, 1/30, 1/2]`, `j = 1`. -/
theorem claim_C2_witness :
    enforce ([2, 1/30, 1/2] : List ℚ) 1 = some (enforceCore [2, 1/30, 1/2] 1)
    ∧ (enforceCore ([2, 1/30, 1/2] : List ℚ) 1).1.getLast? = some 1
    ∧ (∀ x ∈ (enforceCore ([2, 1/30, 1/2] : List ℚ) 1).1, 1 / 10 ≤ x ∧ x ≤ 1)
    ∧ List.Chain' (· ≤ ·) (enforceCore ([2, 1/30, 1/2] : List ℚ) 1).1 :=
  claim_C2_enforce_establishes_invariants [2, 1/30, 1/2] 1 (by decide) (by decide)

/-- C6: `enforce` is idempotent: on the vector produced by a first call
with pivot `j`, a second call with the same pivot changes nothing and
returns status 0. -/
theorem claim_C6_enforce_idempotent (b : List F) (j : Nat)
    (hne : b ≠ []) (hj : j < b.length) :
    enforceCore (enforceCore b j).1 j = ((enforceCore b j).1, false) := by
  obtain ⟨h1, h2, h3⟩ := enforceCore_invariants b j hne hj
  have hlen := enforceCore_length b j
  have hne' : (enforceCore b j).1 ≠ [] := by
    rw [← List.length_pos, hlen]
    exact List.length_pos.mpr hne
  exact enforceCore_of_feasible _ j hne' (by rw [hlen]; exact hj) h2 h1 h3

/-- Witness for C6 at the concrete input `b = [3, 1/2, 7]`, `j = 1`. -/
theorem claim_C6_witness :
    enforceCore (enforceCore ([3, 1/2, 7] : List ℚ) 1).1 1
      = ((enforceCore ([3, 1/2, 7] : List ℚ) 1).1, false) :=
  claim_C6_enforce_idempotent [3, 1/2, 7] 1 (by decide) (by decide)

/-- C9: the pivoted projection never overwrites the pivot: for `d ≥ 2`,
`j < d - 1` and `0.1 ≤ b[j] ≤ 1`, `enforce(b, j)` leaves `b[j]` unchanged. -/
theorem claim_C9_enforce_preserves_pivot (b : List F) (j : Nat)
    (hd : 2 ≤ b.length) (hj : j < b.length - 1)
    (hlo : 1 / 10 ≤ b.getD j 0) (hhi : b.getD j 0 ≤ 1) :
    (enforceCore b j).1.getD j 0 = b.getD j 0 := by
  have hjb : j < b.length := by omega
  rw [enforceCore_fst]
  set b1 := b.set (b.length - 1) 1 with hb1
  set b2 := b1.map clampOne with hb2
  have hlen2 : b2.length = b.length := by simp [hb2, hb1]
  have hj2 : j < b2.length := by omega
  -- the entry at j survives the pin and the clamp
  have hb2j : b2[j]? = some (b.getD j 0) := by
    rw [hb2, List.getElem?_map, hb1,
      List.getElem?_set_ne (by omega : b.length - 1 ≠ j),
      List.getElem?_eq_getElem hjb]
    have hlo' : 1 / 10 ≤ b[j] := by rwa [getD_eq_getElem b hjb] at hlo
    have hhi' : b[j] ≤ 1 := by rwa [getD_eq_getElem b hjb] at hhi
    rw [Option.map_some', clampOne_id hlo' hhi', getD_eq_getElem b hjb]
  -- the right sweep keeps its head, which is exactly b2[j]
  have hdropne : b2.drop j ≠ [] := by
    rw [← List.length_pos]
    simp [hlen2]
    omega
  obtain ⟨x, xs, hdx⟩ := List.exists_cons_of_ne_nil hdropne
  have hxval : b.getD j 0 = x := by
    have h0 := List.head?_drop b2 j
    rw [hdx, hb2j, List.head?_cons] at h0
    exact (Option.some.inj h0).symm
  have hrs1 : (sweepR (b2.drop j)).1 = x :: (sweepRgo x xs).1 := by rw [hdx]; rfl
  have hhead : (sweepR (b2.drop j)).1.headD 0 = x := by rw [hrs1]; rfl
  -- the left part has length exactly j
  have hlslen : (sweepLgo ((sweepR (b2.drop j)).1.headD 0)
      (b2.take j).reverse).1.reverse.length = j := by
    rw [List.length_reverse, sweepLgo_length, List.length_reverse, List.length_take]
    omega
  rw [getD_append_of_length hlslen, hrs1]
  rw [List.getD_cons_zero]
  exact hxval.symm
/-- Witness for C9 at the concrete input `b = [1/5, 1/2, 2, 1]`, `j = 1`. -/
theorem claim_C9_witness :
    (enforceCore ([1/5, 1/2, 2, 1] : List ℚ) 1).1.getD 1 0
      = ([1/5, 1/2, 2, 1] : List ℚ).getD 1 0 :=
  claim_C9_enforce_preserves_pivot [1/5, 1/2, 2, 1] 1 (by decide) (by decide)
    (by norm_num [List.getD_cons_succ, List.getD_cons_zero])
    (by norm_num [List.getD_cons_succ, List.getD_cons_zero])

/-- A rational stand-in backend for exercising the sqrt/log-free parts of
the code on concrete inputs (the three operations are never used there). -/
def ratOps : ScalarOps ℚ := ⟨id, id, id⟩

/-- The empty (just-constructed) rational pruner used by the C1 witness. -/
def qP0 : Pruner ℚ := mkPruner ratOps (factTable ℚ) (fun _ => 0)

/-- C1 (code bug): on a Pruner on which `load_basis_shape` has not been
called (`d = 0`), the public queries do NOT raise `BasisNotLoaded`:
`check_loaded_basis` is never called by them.  Instead they reach
`enforce` on the empty compact vector, whose first statement
`b[d - 1] = 1` is the out-of-bounds write `b[-1] = 1` (undefined
behaviour, modelled as `indexOutOfBounds`).  The unused
`check_loaded_basis` member is exactly the check the spec describes. -/
theorem claim_C1_queries_before_load (S : ScalarOps F) (P : Pruner F) (pr : Nat → F)
    (fo fi : Nat) (hd : P.d = 0) :
    get_enum_cost S P pr = .error .indexOutOfBounds
    ∧ get_enum_cost_with_retrials S P pr = .error .indexOutOfBounds
    ∧ get_svp_success_proba P pr = .error .indexOutOfBounds
    ∧ optimize_pruning_coeffs S P fo fi pr true = .error .indexOutOfBounds
    ∧ optimize_pruning_coeffs S P fo fi pr false = .error .indexOutOfBounds
    ∧ get_enum_cost S P pr ≠ .error .basisNotLoaded
    ∧ check_loaded_basis P = .error .basisNotLoaded := by
  have hext : extract_coeffs P pr = [] := by simp [extract_coeffs, hd]
  have hload : load_prunning_coeffs P pr = .error .indexOutOfBounds := by
    rw [load_prunning_coeffs, hext]
    rfl
  have hinit : init_prunning_coeffs P = none := by
    rw [init_prunning_coeffs, hd]
    rfl
  refine ⟨?_, ?_, ?_, ?_, ?_, ?_, ?_⟩
  · rw [get_enum_cost, hload]; rfl
  · rw [get_enum_cost_with_retrials, hload]; rfl
  · rw [get_svp_success_proba, hload]; rfl
  · rw [optimize_pruning_coeffs]
    simp only [if_pos rfl, hinit]
    rfl
  · rw [optimize_pruning_coeffs]
    simp only [if_neg (by simp : ¬ (false = true)), hload]
    rfl
  · rw [get_enum_cost, hload]
    simp [Except.map]
  · rw [check_loaded_basis, hd]
    rfl

/-- Witness for C1 on the freshly constructed rational pruner. -/
theorem claim_C1_witness :
    get_enum_cost ratOps qP0 (fun _ => 1) = .error .indexOutOfBounds
    ∧ get_enum_cost_with_retrials ratOps qP0 (fun _ => 1) = .error .indexOutOfBounds
    ∧ get_svp_success_proba qP0 (fun _ => 1) = .error .indexOutOfBounds
    ∧ optimize_pruning_coeffs ratOps qP0 3 4 (fun _ => 1) true = .error .indexOutOfBounds
    ∧ optimize_pruning_coeffs ratOps qP0 3 4 (fun _ => 1) false = .error .indexOutOfBounds
    ∧ get_enum_cost ratOps qP0 (fun _ => 1) ≠ .error .basisNotLoaded
    ∧ check_loaded_basis qP0 = .error .basisNotLoaded :=
  claim_C1_queries_before_load ratOps qP0 (fun _ => 1) 3 4 rfl

/-! ### `relative_volume` on the all-ones vector

When every abscissa of the loop equals 1, the working polynomial after
`k` iterations is `(x - 1)^k / k!`; we track its coefficient function. -/

/-- Coefficients of `(x - 1)^k / k!`. -/
def coefFun (k : Nat) : Nat → F := fun idx =>
  if idx ≤ k then
    (-1) ^ (k - idx) * ((Nat.factorial idx : F) * (Nat.factorial (k - idx) : F))⁻¹
  else 0

theorem horner_one (p : Nat → F) (ld : Nat) (acc : F) :
    horner p 1 ld acc = acc + ∑ i ∈ Finset.range (ld + 1), p i := by
  induction ld generalizing acc with
  | zero => simp [horner]
  | succ n ih =>
    rw [horner, ih, Finset.sum_range_succ p (n + 1)]
    ring

theorem eval_poly_one (ld : Nat) (p : Nat → F) :
    eval_poly ld p 1 = ∑ i ∈ Finset.range (ld + 1), p i := by
  rw [eval_poly, horner_one, zero_add]

theorem alt_sum_choose (m : Nat) (hm : 1 ≤ m) :
    ∑ k ∈ Finset.range (m + 1), (1 : F) ^ k * (-1) ^ (m - k) * (Nat.choose m k : F) = 0 := by
  rw [← add_pow]
  rw [add_neg_cancel]
  exact zero_pow (by omega)

theorem factorial_cast_ne_zero (i : Nat) : (Nat.factorial i : F) ≠ 0 :=
  Nat.cast_ne_zero.mpr (Nat.factorial_ne_zero i)

theorem coefFun_inv_eq (m idx : Nat) (hle : idx ≤ m) :
    ((Nat.factorial idx : F) * (Nat.factorial (m - idx) : F))⁻¹
      = (Nat.choose m idx : F) * (Nat.factorial m : F)⁻¹ := by
  have hch : (Nat.choose m idx * Nat.factorial idx * Nat.factorial (m - idx) : Nat)
      = Nat.factorial m := Nat.choose_mul_factorial_mul_factorial hle
  have h1 : (Nat.factorial m : F)
      = (Nat.choose m idx : F) * (Nat.factorial idx : F) * (Nat.factorial (m - idx) : F) := by
    exact_mod_cast congrArg (Nat.cast (R := F)) hch.symm
  have hc : (Nat.choose m idx : F) ≠ 0 :=
    Nat.cast_ne_zero.mpr (Nat.choose_pos hle).ne'
  field_simp [h1]
  ring

theorem coefFun_sum_zero (m : Nat) (hm : 1 ≤ m) :
    ∑ idx ∈ Finset.range (m + 1), coefFun (F := F) m idx = 0 := by
  have key : ∀ idx ∈ Finset.range (m + 1), coefFun (F := F) m idx
      = (1 : F) ^ idx * (-1) ^ (m - idx) * (Nat.choose m idx : F) * (Nat.factorial m : F)⁻¹ := by
    intro idx hidx
    rw [Finset.mem_range] at hidx
    have hle : idx ≤ m := by omega
    rw [coefFun, if_pos hle, coefFun_inv_eq m idx hle]
    ring
  rw [Finset.sum_congr rfl key, ← Finset.sum_mul, alt_sum_choose m hm, zero_mul]

theorem integrate_poly_coefFun (k : Nat) :
    integrate_poly k (coefFun (F := F) k)
      = fun idx => if idx = 0 then 0 else coefFun (k + 1) idx := by
  funext idx
  unfold integrate_poly
  rcases idx with _ | m
  · simp
  · rw [if_neg (show ¬ (m + 1 = 0) by omega), if_neg (show ¬ (m + 1 = 0) by omega)]
    by_cases h : m + 1 ≤ k + 1
    · rw [if_pos h]
      have hm : m ≤ k := by omega
      have hs : m + 1 - 1 = m := by omega
      rw [hs, coefFun, coefFun, if_pos hm, if_pos h]
      have hkk : k + 1 - (m + 1) = k - m := by omega
      rw [hkk, Nat.factorial_succ]
      have h1 : ((m + 1 : Nat) : F) ≠ 0 := Nat.cast_ne_zero.mpr (by omega)
      have h2 : (Nat.factorial m : F) ≠ 0 := factorial_cast_ne_zero m
      have h3 : (Nat.factorial (k - m) : F) ≠ 0 := factorial_cast_ne_zero (k - m)
      push_cast
      field_simp
      ring
    · rw [if_neg h, coefFun, coefFun, if_neg (show ¬ (m + 1 ≤ k) by omega),
        if_neg (show ¬ (m + 1 ≤ k + 1) by omega)]

theorem relvolStep_coefFun (k : Nat) :
    relvolStep (1 : F) (coefFun k, k) = (coefFun (k + 1), k + 1) := by
  unfold relvolStep
  simp only [integrate_poly_coefFun]
  refine Prod.ext ?_ rfl
  funext idx
  rcases idx with _ | m
  · -- index 0: the negated Horner evaluation at 1
    show -eval_poly (k + 1) (fun idx => if idx = 0 then 0 else coefFun (F := F) (k + 1) idx) 1
        = coefFun (k + 1) 0
    rw [eval_poly_one]
    have h1 : ∑ i ∈ Finset.range (k + 1 + 1),
        (if i = 0 then (0 : F) else coefFun (k + 1) i)
        = ∑ i ∈ Finset.range (k + 1), coefFun (F := F) (k + 1) (i + 1) := by
      rw [Finset.sum_range_succ']
      simp
    have h2 : ∑ i ∈ Finset.range (k + 1), coefFun (F := F) (k + 1) (i + 1)
        + coefFun (F := F) (k + 1) 0 = 0 := by
      rw [← Finset.sum_range_succ']
      exact coefFun_sum_zero (k + 1) (by omega)
    rw [h1]
    linarith [h2]
  · rfl

theorem relvolLoop_coefFun (bf : Nat → F) (brd1 : F) :
    ∀ m, (∀ i < m, bf i / brd1 = 1) → ∀ k,
      relvolLoop bf brd1 m (coefFun k, k) = (coefFun (k + m), k + m) := by
  intro m
  induction m with
  | zero => intro _ k; rfl
  | succ m ih =>
    intro hb k
    rw [relvolLoop, hb m (by omega), relvolStep_coefFun, ih (fun i hi => hb i (by omega)) (k + 1)]
    have : k + 1 + m = k + (m + 1) := by omega
    rw [this]

theorem coefFun_zero : coefFun (F := F) 0 = fun k => if k = 0 then (1 : F) else 0 := by
  funext k
  rcases k with _ | m
  · simp [coefFun, Nat.factorial]
  · simp [coefFun]

theorem coefFun_at_zero (rd : Nat) :
    coefFun (F := F) rd 0 = (-1) ^ rd * (Nat.factorial rd : F)⁻¹ := by
  simp [coefFun, Nat.factorial]

/-- `relative_volume(rd, b)` is exactly 1 whenever the first `rd` entries
of `b` equal 1 (with the factorial table as in spec 4.2). -/
theorem relative_volume_ones (P : Pruner F)
    (hfact : P.tabulated_factorial = fun i => (Nat.factorial i : F))
    (rd : Nat) (hrd : 1 ≤ rd) (b : List F) (hb : ∀ i < rd, b.getD i 0 = 1) :
    relative_volume P rd b = 1 := by
  have hbrd : b.getD (rd - 1) 0 = 1 := hb (rd - 1) (by omega)
  simp only [relative_volume]
  rw [← coefFun_zero,
    relvolLoop_coefFun _ _ rd (fun i hi => by rw [hb i hi, hbrd, div_one]) 0]
  have h0 : coefFun (F := F) (0 + rd) 0 = (-1) ^ rd * (Nat.factorial rd : F)⁻¹ := by
    rw [Nat.zero_add, coefFun_at_zero]
  rw [hfact]
  have hne : (Nat.factorial rd : F) ≠ 0 := factorial_cast_ne_zero rd
  rcases Nat.even_or_odd rd with he | ho
  · have hmod : rd % 2 = 0 := Nat.even_iff.mp he
    rw [if_neg (show ¬ rd % 2 = 1 by omega)]
    show coefFun (F := F) (0 + rd) 0 * (Nat.factorial rd : F) = 1
    rw [h0, he.neg_one_pow]
    field_simp
  · rw [if_pos (Nat.odd_iff.mp ho)]
    show -coefFun (F := F) (0 + rd) 0 * (Nat.factorial rd : F) = 1
    rw [h0, ho.neg_one_pow]
    field_simp

theorem getD_replicate_one {d i : Nat} (hi : i < d) :
    (List.replicate d (1 : F)).getD i 0 = 1 := by
  rw [getD_eq_getElem _ (by simpa using hi)]
  exact List.getElem_replicate _ _

/-- A loaded rational test pruner: `n = 4`, `d = 2`, an all-ones shape
(`r = pv = 1`, renormalization factor 1), constructor defaults otherwise.
The ball-volume table is irrelevant for the sqrt-free queries exercised on
it and set to 0. -/
def qP4 : Pruner ℚ :=
  { mkPruner ratOps (factTable ℚ) (fun _ => 0) with
      n := 4, d := 2, r := fun _ => 1, pv := fun _ => 1, renormalization_factor := 1 }

/-- C5: on the all-ones compact vector, `relative_volume` is exactly 1,
the shell-shifted vector `b'` equals `b`, and `svp_success_proba` is
exactly 1 (the shell quotient collapses). -/
theorem claim_C5_svp_proba_ones (P : Pruner F)
    (hfact : P.tabulated_factorial = fun i => (Nat.factorial i : F))
    (hd : 1 ≤ P.d) (hdx0 : 0 < P.shell_dx) (hdx1 : P.shell_dx < 1) :
    relative_volume P P.d (List.replicate P.d 1) = 1
    ∧ (List.replicate P.d (1 : F)).map
        (fun x => if 1 < x / (P.shell_dx * P.shell_dx) then 1
          else x / (P.shell_dx * P.shell_dx))
        = List.replicate P.d 1
    ∧ svp_success_proba P (List.replicate P.d 1) = 1 := by
  have hones : ∀ i < P.d, (List.replicate P.d (1 : F)).getD i 0 = 1 :=
    fun i hi => getD_replicate_one hi
  have hvol : relative_volume P P.d (List.replicate P.d 1) = 1 :=
    relative_volume_ones P hfact P.d hd _ hones
  have hdxsq : 0 < P.shell_dx * P.shell_dx := mul_pos hdx0 hdx0
  have hgt : (1 : F) < 1 / (P.shell_dx * P.shell_dx) := by
    rw [lt_div_iff₀ hdxsq]
    nlinarith
  have hmap : (List.replicate P.d (1 : F)).map
      (fun x => if 1 < x / (P.shell_dx * P.shell_dx) then 1
        else x / (P.shell_dx * P.shell_dx))
      = List.replicate P.d 1 := by
    rw [List.map_replicate, if_pos hgt]
  refine ⟨hvol, hmap, ?_⟩
  simp only [svp_success_proba]
  rw [hmap, hvol, mul_one]
  have hpow : P.shell_dx ^ (2 * P.d) < 1 :=
    pow_lt_one₀ (le_of_lt hdx0) hdx1 (by omega)
  exact div_self (sub_ne_zero.mpr (ne_of_lt hpow))

/-- Witness for C5 on the concrete loaded rational pruner (`d = 2`). -/
theorem claim_C5_witness :
    relative_volume qP4 qP4.d (List.replicate qP4.d 1) = 1
    ∧ (List.replicate qP4.d (1 : ℚ)).map
        (fun x => if 1 < x / (qP4.shell_dx * qP4.shell_dx) then 1
          else x / (qP4.shell_dx * qP4.shell_dx))
        = List.replicate qP4.d 1
    ∧ svp_success_proba qP4 (List.replicate qP4.d 1) = 1 :=
  claim_C5_svp_proba_ones qP4 rfl (by decide)
    (show (0 : ℚ) < 199 / 200 by norm_num)
    (show (199 : ℚ) / 200 < 1 by norm_num)

/-! ### Loading input coefficients: rejection and silent clamping -/

theorem sweepR_id {l : List F} (h : List.Chain' (· ≤ ·) l) : sweepR l = (l, false) := by
  cases l with
  | nil => rfl
  | cons x xs => simp only [sweepR, sweepRgo_id h]

/-- The extracted vector is nonempty once a basis is loaded. -/
theorem extract_coeffs_ne_nil (P : Pruner F) (pr : Nat → F) (hd : 1 ≤ P.d) :
    extract_coeffs P pr ≠ [] := by
  rw [← List.length_pos]
  simp [extract_coeffs]
  omega

/-- `load_prunning_coeffs` in terms of the `enforce` status flag. -/
theorem load_prunning_coeffs_eq (P : Pruner F) (pr : Nat → F) (hd : 1 ≤ P.d) :
    load_prunning_coeffs P pr
      = if (enforceCore (extract_coeffs P pr) 0).2
          then Except.error PrunerError.infeasibleCoefficients
          else Except.ok (enforceCore (extract_coeffs P pr) 0).1 := by
  obtain ⟨x, xs, hx⟩ := List.exists_cons_of_ne_nil (extract_coeffs_ne_nil P pr hd)
  rw [load_prunning_coeffs, hx]
  rfl

/-- C4 (amended): the public queries raise `InfeasibleCoefficients` iff
`enforce` on the extracted vector reports a change; when no change is
reported, the returned quantity is the one computed from the vector that
`enforce` produced (which may silently differ from the extracted one). -/
theorem claim_C4_reject_iff_enforce_change (S : ScalarOps F) (P : Pruner F) (pr : Nat → F)
    (hd : 1 ≤ P.d) :
    (get_enum_cost S P pr = .error .infeasibleCoefficients
      ↔ (enforceCore (extract_coeffs P pr) 0).2 = true)
    ∧ (get_enum_cost_with_retrials S P pr = .error .infeasibleCoefficients
      ↔ (enforceCore (extract_coeffs P pr) 0).2 = true)
    ∧ (get_svp_success_proba P pr = .error .infeasibleCoefficients
      ↔ (enforceCore (extract_coeffs P pr) 0).2 = true)
    ∧ ((enforceCore (extract_coeffs P pr) 0).2 = false →
        get_enum_cost S P pr = .ok (cost S P (enforceCore (extract_coeffs P pr) 0).1)
        ∧ get_enum_cost_with_retrials S P pr
            = .ok (cost_factor S P (enforceCore (extract_coeffs P pr) 0).1)
        ∧ get_svp_success_proba P pr
            = .ok (svp_success_proba P (enforceCore (extract_coeffs P pr) 0).1)) := by
  have hload := load_prunning_coeffs_eq P pr hd
  by_cases hf : (enforceCore (extract_coeffs P pr) 0).2 = true
  · simp [get_enum_cost, get_enum_cost_with_retrials, get_svp_success_proba, hload, hf,
      Except.map]
  · have hf' : (enforceCore (extract_coeffs P pr) 0).2 = false := by
      revert hf
      cases (enforceCore (extract_coeffs P pr) 0).2 <;> simp
    simp [get_enum_cost, get_enum_cost_with_retrials, get_svp_success_proba, hload, hf',
      Except.map]

/-- Witness for C4's amended statement on the concrete loaded pruner with
a feasible input (`pr` all ones, extracted `b = [1, 1]`). -/
theorem claim_C4_witness :
    (get_enum_cost ratOps qP4 (fun _ => 1) = .error .infeasibleCoefficients
      ↔ (enforceCore (extract_coeffs qP4 (fun _ => 1)) 0).2 = true)
    ∧ (get_enum_cost_with_retrials ratOps qP4 (fun _ => 1) = .error .infeasibleCoefficients
      ↔ (enforceCore (extract_coeffs qP4 (fun _ => 1)) 0).2 = true)
    ∧ (get_svp_success_proba qP4 (fun _ => 1) = .error .infeasibleCoefficients
      ↔ (enforceCore (extract_coeffs qP4 (fun _ => 1)) 0).2 = true)
    ∧ ((enforceCore (extract_coeffs qP4 (fun _ => 1)) 0).2 = false →
        get_enum_cost ratOps qP4 (fun _ => 1)
            = .ok (cost ratOps qP4 (enforceCore (extract_coeffs qP4 (fun _ => 1)) 0).1)
        ∧ get_enum_cost_with_retrials ratOps qP4 (fun _ => 1)
            = .ok (cost_factor ratOps qP4 (enforceCore (extract_coeffs qP4 (fun _ => 1)) 0).1)
        ∧ get_svp_success_proba qP4 (fun _ => 1)
            = .ok (svp_success_proba qP4 (enforceCore (extract_coeffs qP4 (fun _ => 1)) 0).1)) :=
  claim_C4_reject_iff_enforce_change ratOps qP4 (fun _ => 1) (by decide)

/-- The input of C4's counterexample: `n = 4`, `pr = [1, 1, 1, 1/20]`
read positionally, i.e. `pr 3 = 1/20`, so the extracted compact vector is
`b = [1/20, 1]`. -/
def prC4 : Nat → ℚ := fun k => if k = 3 then 1 / 20 else 1

theorem extract_qP4_prC4 : extract_coeffs qP4 prC4 = [1 / 20, 1] := by
  norm_num [extract_coeffs, qP4, prC4, List.range_succ]

theorem enforce_prC4 : enforceCore ([1 / 20, 1] : List ℚ) 0 = ([1 / 10, 1], false) := by
  norm_num [enforceCore, sweepR, sweepRgo, sweepLgo, clampOne, List.getD]

theorem svp_qP4_clamped : svp_success_proba qP4 ([1 / 10, 1] : List ℚ) = 8000 / 79601 := by
  norm_num [svp_success_proba, relative_volume, relvolLoop, relvolStep, integrate_poly,
    eval_poly, horner, qP4, mkPruner, factTable, Nat.factorial, ratOps, List.getD]

theorem svp_qP4_raw : svp_success_proba qP4 ([1 / 20, 1] : List ℚ) = 4000 / 79601 := by
  norm_num [svp_success_proba, relative_volume, relvolLoop, relvolStep, integrate_poly,
    eval_poly, horner, qP4, mkPruner, factTable, Nat.factorial, ratOps, List.getD]

/-- Counterexample to C4 as stated: on `pr` with extracted `b = [1/20, 1]`
`enforce` reports no change (the sub-0.1 entry is silently clamped), yet
the query returns the value for the clamped vector `[1/10, 1]`, not the
quantity computed from the extracted `b`. -/
theorem claim_C4_counterexample :
    (enforceCore (extract_coeffs qP4 prC4) 0).2 = false
    ∧ get_svp_success_proba qP4 prC4
        = Except.ok (svp_success_proba qP4 ([1 / 10, 1] : List ℚ))
    ∧ get_svp_success_proba qP4 prC4
        ≠ Except.ok (svp_success_proba qP4 (extract_coeffs qP4 prC4)) := by
  have henf : enforce (extract_coeffs qP4 prC4) 0 = some (([1 / 10, 1] : List ℚ), false) := by
    rw [extract_qP4_prC4]
    show some (enforceCore ([1 / 20, 1] : List ℚ) 0) = _
    rw [enforce_prC4]
  have hload : load_prunning_coeffs qP4 prC4 = Except.ok ([1 / 10, 1] : List ℚ) := by
    rw [load_prunning_coeffs, henf]
    rfl
  refine ⟨?_, ?_, ?_⟩
  · rw [extract_qP4_prC4, enforce_prC4]
  · rw [get_svp_success_proba, hload]
    rfl
  · rw [get_svp_success_proba, hload, extract_qP4_prC4]
    intro h
    simp only [Except.map] at h
    injection h with h'
    rw [svp_qP4_clamped, svp_qP4_raw] at h'
    norm_num at h'

/-- The clamp applied by `enforce` to an entry already known to be `≤ 1`:
values at most 0.1 are raised to 0.1, everything else kept. -/
def raise01 (x : F) : F := if x ≤ 1 / 10 then 1 / 10 else x

theorem clampOne_eq_raise01 {x : F} (h : x ≤ 1) : clampOne x = raise01 x := by
  unfold clampOne raise01
  rw [if_neg (not_lt.mpr h)]

theorem raise01_mono {x y : F} (h : x ≤ y) : raise01 x ≤ raise01 y := by
  unfold raise01
  split
  · split
    · exact le_refl _
    · next h2 => linarith [not_le.mp h2]
  · split
    · next h1 h2 => linarith [not_le.mp h1]
    · exact h

theorem raise01_one : raise01 (1 : F) = 1 := by
  unfold raise01
  rw [if_neg (by norm_num)]

/-- `enforce` on a non-decreasing vector with last entry 1 and all entries
`≤ 1` silently clamps the sub-0.1 entries and reports no change. -/
theorem enforceCore_clamps_silently (b : List F) (hne : b ≠ [])
    (hchain : List.Chain' (· ≤ ·) b) (hlast : b.getLast? = some 1)
    (hle : ∀ x ∈ b, x ≤ 1) :
    enforceCore b 0 = (b.map raise01, false) := by
  have hgd : b.getD (b.length - 1) 0 = 1 := getD_last_of_getLast? hlast
  have hset : b.set (b.length - 1) 1 = b := set_last_of_getLast? hlast
  have hany : (b.any fun x => decide (1 < x)) = false := by
    rw [List.any_eq_false]
    intro x hx
    simp only [decide_eq_true_eq, not_lt]
    exact hle x hx
  have hmapc : b.map clampOne = b.map raise01 :=
    List.map_congr_left fun x hx => clampOne_eq_raise01 (hle x hx)
  have hchain2 : List.Chain' (· ≤ ·) (b.map raise01) :=
    List.chain'_map_of_chain' raise01 (fun _ _ h => raise01_mono h) hchain
  have hsweepR : sweepR ((b.map raise01).drop 0) = (b.map raise01, false) := by
    rw [List.drop_zero]
    exact sweepR_id hchain2
  simp only [enforceCore, hset, hmapc, hgd, hany, hsweepR]
  simp [sweepLgo]

/-- C10: inputs violating only the lower bound 0.1 are accepted, not
rejected: the sub-0.1 entries are silently raised to 0.1, the queries do
not raise `InfeasibleCoefficients`, and the returned value is the one
computed from the clamped vector — which genuinely differs from the
extracted input vector. -/
theorem claim_C10_sub_tenth_inputs_accepted (S : ScalarOps F) (P : Pruner F) (pr : Nat → F)
    (hd : 1 ≤ P.d)
    (hchain : List.Chain' (· ≤ ·) (extract_coeffs P pr))
    (hlast : (extract_coeffs P pr).getLast? = some 1)
    (hle : ∀ x ∈ extract_coeffs P pr, x ≤ 1)
    (hbelow : ∃ x ∈ extract_coeffs P pr, x < 1 / 10) :
    load_prunning_coeffs P pr = .ok ((extract_coeffs P pr).map raise01)
    ∧ get_enum_cost S P pr = .ok (cost S P ((extract_coeffs P pr).map raise01))
    ∧ get_enum_cost_with_retrials S P pr
        = .ok (cost_factor S P ((extract_coeffs P pr).map raise01))
    ∧ get_svp_success_proba P pr
        = .ok (svp_success_proba P ((extract_coeffs P pr).map raise01))
    ∧ (extract_coeffs P pr).map raise01 ≠ extract_coeffs P pr := by
  have hne := extract_coeffs_ne_nil P pr hd
  have henf := enforceCore_clamps_silently (extract_coeffs P pr) hne hchain hlast hle
  have hload : load_prunning_coeffs P pr = .ok ((extract_coeffs P pr).map raise01) := by
    rw [load_prunning_coeffs_eq P pr hd, henf]
    rfl
  refine ⟨hload, ?_, ?_, ?_, ?_⟩
  · rw [get_enum_cost, hload]
    rfl
  · rw [get_enum_cost_with_retrials, hload]
    rfl
  · rw [get_svp_success_proba, hload]
    rfl
  · intro heq
    obtain ⟨x, hx, hxlt⟩ := hbelow
    obtain ⟨i, hi, hxi⟩ := List.mem_iff_getElem.mp hx
    have h2 : ((extract_coeffs P pr).map raise01)[i]? = (extract_coeffs P pr)[i]? := by
      rw [heq]
    rw [List.getElem?_map, List.getElem?_eq_getElem hi] at h2
    simp only [Option.map_some'] at h2
    injection h2 with h3
    rw [hxi, raise01, if_pos (le_of_lt hxlt)] at h3
    linarith [h3, hxlt]

/-- Witness for C10 at the concrete input `pr` with extracted vector
`b = [1/20, 1]` (entry `1/20 < 0.1`). -/
theorem claim_C10_witness :
    load_prunning_coeffs qP4 prC4 = .ok ((extract_coeffs qP4 prC4).map raise01)
    ∧ get_enum_cost ratOps qP4 prC4
        = .ok (cost ratOps qP4 ((extract_coeffs qP4 prC4).map raise01))
    ∧ get_enum_cost_with_retrials ratOps qP4 prC4
        = .ok (cost_factor ratOps qP4 ((extract_coeffs qP4 prC4).map raise01))
    ∧ get_svp_success_proba qP4 prC4
        = .ok (svp_success_proba qP4 ((extract_coeffs qP4 prC4).map raise01))
    ∧ (extract_coeffs qP4 prC4).map raise01 ≠ extract_coeffs qP4 prC4 :=
  claim_C10_sub_tenth_inputs_accepted ratOps qP4 prC4 (by decide)
    (by rw [extract_qP4_prC4]; norm_num [List.chain'_cons, List.chain'_singleton])
    (by rw [extract_qP4_prC4]; rfl)
    (by rw [extract_qP4_prC4]; intro x hx; rcases List.mem_cons.mp hx with h | h
        · rw [h]; norm_num
        · rw [List.mem_singleton.mp h])
    (by rw [extract_qP4_prC4]; exact ⟨1 / 20, by norm_num, by norm_num⟩)

/-! ### Save/load round trip -/

theorem saveAux_read (P : Pruner F) (b : List F) (pr : Nat → F) (hn : 2 * P.d ≤ P.n) :
    ∀ m, m ≤ P.d → ∀ i, i < m → saveAux P b pr m (P.n - 1 - 2 * i) = b.getD i 0 := by
  intro m
  induction m with
  | zero => intro _ i hi; omega
  | succ m ih =>
    intro hm i hi
    rw [saveAux]
    by_cases hieq : i = m
    · subst hieq
      have h2 : ¬ (P.n - 1 - 2 * i = P.n - 2 - 2 * i) := by omega
      simp only [upd]
      rw [if_neg h2]
      simp
    · have h1 : ¬ (P.n - 1 - 2 * i = P.n - 2 - 2 * m) := by omega
      have h2 : ¬ (P.n - 1 - 2 * i = P.n - 1 - 2 * m) := by omega
      simp only [upd]
      rw [if_neg h1, if_neg h2]
      exact ih (by omega) i (by omega)

theorem save_prunning_coeffs_read (P : Pruner F) (b : List F) (pr : Nat → F)
    (hn : 2 * P.d ≤ P.n) (i : Nat) (hi : i < P.d) :
    save_prunning_coeffs P pr b (P.n - 1 - 2 * i) = b.getD i 0 := by
  rw [save_prunning_coeffs]
  simp only [upd]
  rw [if_neg (by omega : ¬ (P.n - 1 - 2 * i = 0))]
  exact saveAux_read P b pr hn P.d le_rfl i hi

theorem save_prunning_coeffs_at_zero (P : Pruner F) (b : List F) (pr : Nat → F) :
    save_prunning_coeffs P pr b 0 = 1 := by
  rw [save_prunning_coeffs]
  simp [upd]

theorem extract_coeffs_save (P : Pruner F) (b : List F) (pr : Nat → F)
    (hlen : b.length = P.d) (hn : 2 * P.d ≤ P.n) :
    extract_coeffs P (save_prunning_coeffs P pr b) = b := by
  apply List.ext_getElem
  · simp [extract_coeffs, hlen]
  · intro i h1 h2
    simp only [extract_coeffs, List.getElem_map, List.getElem_range]
    have hi : i < P.d := by simpa [extract_coeffs] using h1
    rw [save_prunning_coeffs_read P b pr hn i hi, getD_eq_getElem b h2]

/-- C8: save/load round trip.  For a feasible `b` on a loaded basis
(`d ≥ 1`, `2d ≤ n` as guaranteed by `d = n/2`), saving and re-loading
raises nothing and returns `b` itself, and `pr[0] = 1` after the save. -/
theorem claim_C8_save_load_roundtrip (P : Pruner F) (pr : Nat → F) (b : List F)
    (hlen : b.length = P.d) (hd : 1 ≤ P.d) (hn : 2 * P.d ≤ P.n)
    (hchain : List.Chain' (· ≤ ·) b) (hmem : ∀ x ∈ b, 1 / 10 ≤ x ∧ x ≤ 1)
    (hlast : b.getLast? = some 1) :
    load_prunning_coeffs P (save_prunning_coeffs P pr b) = .ok b
    ∧ save_prunning_coeffs P pr b 0 = 1 := by
  have hne : b ≠ [] := by
    rw [← List.length_pos]
    omega
  have hext : extract_coeffs P (save_prunning_coeffs P pr b) = b :=
    extract_coeffs_save P b pr hlen hn
  have henf : enforceCore b 0 = (b, false) :=
    enforceCore_of_feasible b 0 hne (by omega) hmem hlast hchain
  refine ⟨?_, save_prunning_coeffs_at_zero P b pr⟩
  rw [load_prunning_coeffs_eq P _ hd, hext, henf]
  rfl

/-- Witness for C8 on the concrete loaded pruner, `b = [1/2, 1]`. -/
theorem claim_C8_witness :
    load_prunning_coeffs qP4 (save_prunning_coeffs qP4 (fun _ => 0) [1/2, 1])
        = .ok ([1/2, 1] : List ℚ)
    ∧ save_prunning_coeffs qP4 (fun _ => 0) ([1/2, 1] : List ℚ) 0 = 1 :=
  claim_C8_save_load_roundtrip qP4 (fun _ => 0) [1/2, 1] (by decide) (by decide) (by decide)
    (by norm_num [List.chain'_cons, List.chain'_singleton])
    (by intro x hx
        rcases List.mem_cons.mp hx with h | h
        · rw [h]; constructor <;> norm_num
        · rw [List.mem_singleton.mp h]; constructor <;> norm_num)
    rfl

/-! ### Monotonicity of the line search and of the descent -/

theorem lineSearch_spec (S : ScalarOps F) (P : Pruner F) (grad : List F) :
    ∀ fuel b cf step i, cf = cost_factor S P b →
      (lineSearch S P grad fuel b cf step i).2.1
          = cost_factor S P (lineSearch S P grad fuel b cf step i).1
      ∧ (lineSearch S P grad fuel b cf step i).2.1 ≤ cf := by
  intro fuel
  induction fuel with
  | zero => exact fun b cf step i hcf => ⟨hcf, le_refl cf⟩
  | succ fuel ih =>
    intro b cf step i hcf
    simp only [lineSearch]
    by_cases h : cf ≤ cost_factor S P
        ((enforceCore (List.zipWith (fun x g => x + step * g) b grad) 0).1)
    · rw [if_pos h]
      exact ⟨hcf, le_refl cf⟩
    · rw [if_neg h]
      have hrec := ih ((enforceCore (List.zipWith (fun x g => x + step * g) b grad) 0).1)
        (cost_factor S P ((enforceCore (List.zipWith (fun x g => x + step * g) b grad) 0).1))
        (step * P.step_factor) (i + 1) rfl
      exact ⟨hrec.1, le_trans hrec.2 (le_of_lt (not_le.mp h))⟩

theorem lineSearch_le (S : ScalarOps F) (P : Pruner F) (grad : List F)
    (fuel : Nat) (b : List F) (step : F) (i : Nat) :
    cost_factor S P (lineSearch S P grad fuel b (cost_factor S P b) step i).1
      ≤ cost_factor S P b := by
  have h := lineSearch_spec S P grad fuel b (cost_factor S P b) step i rfl
  rw [← h.1]
  exact h.2

theorem improve_monotone (S : ScalarOps F) (P : Pruner F) (fuel : Nat) (b : List F) :
    cost_factor S P (improve S P fuel b).1 ≤ cost_factor S P b := by
  simp only [improve]
  split
  · exact le_refl _
  · split
    · exact lineSearch_le S P _ fuel b P.min_step 0
    · exact lineSearch_le S P _ fuel b P.min_step 0

/-- C7: `improve` never increases `cost_factor` (the vector is only ever
replaced by a candidate of strictly smaller `cost_factor`), hence the
terminal `cost_factor` after `descent` is at most the initial one.  The
unbounded loops carry explicit fuel; the bound holds for every fuel. -/
theorem claim_C7_descent_monotone (S : ScalarOps F) (P : Pruner F) (fuelLS fo : Nat)
    (b : List F) :
    cost_factor S P (improve S P fuelLS b).1 ≤ cost_factor S P b
    ∧ cost_factor S P (descent S P fuelLS fo b) ≤ cost_factor S P b := by
  refine ⟨improve_monotone S P fuelLS b, ?_⟩
  induction fo generalizing b with
  | zero => exact le_refl _
  | succ fo ih =>
    simp only [descent]
    split
    · exact improve_monotone S P fuelLS b
    · exact le_trans (ih (improve S P fuelLS b).1) (improve_monotone S P fuelLS b)

/-! ### The n = 2 cost (claim C3) -/

/-- The renormalization factor `exp(logvol / (-n))` computed by
`load_basis_shape` for `n = 2` and raw norms `[a, b]` (reversal makes
`r[0]` come from index 1, so the sum reads `log b + log a`). -/
noncomputable def rf2 (a b : ℝ) : ℝ :=
  Real.exp ((Real.log b + Real.log a) / (-(2 : ℝ)))

/-- The pruner state `load_basis_shape` produces for `n = 2` and raw
squared norms `gso = [a, b]` (see `load2_eq`). -/
noncomputable def loadedP2 (a b : ℝ) : Pruner ℝ :=
  { mkPruner realOps (factTable ℝ) ballVol with
      n := 2
      d := 1
      renormalization_factor := rf2 a b
      r := fun i => (if 2 - 1 - i = 0 then a else b) * rf2 a b
      pv := fun k =>
        ∏ i ∈ Finset.range (k + 1), Real.sqrt ((if 2 - 1 - i = 0 then a else b) * rf2 a b) }

/-- The loaded pruner with the enumeration radius set afterwards (the
caller assigns the public field before querying). -/
noncomputable def loadedP2er (a b er : ℝ) : Pruner ℝ :=
  { loadedP2 a b with enumeration_radius := er }

theorem load2_eq (a b : ℝ) :
    load_basis_shape realOps (mkPruner realOps (factTable ℝ) ballVol) 2
        (fun i => if i = 0 then a else b)
      = some (loadedP2 a b) := by
  rw [load_basis_shape]
  rw [if_neg (by norm_num : ¬ (2 / 2 : Nat) = 0)]
  have hsum : ∑ i ∈ Finset.range 2,
      realOps.log ((fun i => if i = 0 then a else b) (2 - 1 - i))
      = Real.log b + Real.log a := by
    rw [Finset.sum_range_succ, Finset.sum_range_one]
    norm_num [realOps]
  rw [hsum]
  rfl

theorem ballVol_one : ballVol 1 = 2 := by
  rw [ballVol]

theorem ballVol_zero : ballVol 0 = 1 := by
  rw [ballVol]

theorem ballVol_two : ballVol 2 = Real.pi := by
  rw [show (2 : Nat) = 0 + 2 from rfl, ballVol, ballVol_zero]
  norm_num

/-- `enforce` on the singleton extracted for `n = 2`: any entry `≥ 1` is
pinned to 1 with no change reported. -/
theorem enforceCore_single {x : F} (hx : 1 ≤ x) : enforceCore [x] 0 = ([1], false) := by
  have h1 : ¬ (x < 1) := not_lt.mpr hx
  simp [enforceCore, sweepR, sweepRgo, sweepLgo, clampOne, List.getD, h1]
  norm_num

/-- Evaluation of `get_enum_cost` for `n = 2`: the code's sum has the two
levels `i = 0` and `i = 1`; with `∏ r = 1` after renormalization the
second level contributes `er·rf·V₂ = er·rf·π`. -/
theorem cost_n2_eval (a b er : ℝ) (pr : Nat → ℝ)
    (ha : 0 < a) (hb : 0 < b) (her : 0 ≤ er) (hpr : 1 ≤ pr 1) :
    get_enum_cost realOps (loadedP2er a b er) pr
      = .ok ((Real.sqrt (er * rf2 a b) * 2 / Real.sqrt (b * rf2 a b)
          + er * rf2 a b * Real.pi) / 2) := by
  have hrfpos : 0 < rf2 a b := Real.exp_pos _
  -- loading the coefficients yields [1]
  have hext : extract_coeffs (loadedP2er a b er) pr = [pr 1] := by
    simp [extract_coeffs, loadedP2er, loadedP2, List.range_succ]
  have hd1 : (loadedP2er a b er : Pruner ℝ).d = 1 := rfl
  have hload : load_prunning_coeffs (loadedP2er a b er) pr
      = .ok [1] := by
    rw [load_prunning_coeffs_eq _ _ (le_of_eq hd1.symm), hext, enforceCore_single hpr]
    rfl
  rw [get_enum_cost, hload]
  show Except.ok (cost realOps (loadedP2er a b er) [1]) = _
  -- evaluate the cost sum
  have hrv1 : relative_volume (loadedP2er a b er) 1
      ([1] : List ℝ) = 1 := by
    apply relative_volume_ones _ rfl 1 le_rfl
    intro i hi
    interval_cases i
    rfl
  simp only [cost, hd1, Nat.mul_one]
  rw [Finset.sum_range_succ, Finset.sum_range_one]
  have hr0 : (loadedP2er a b er : Pruner ℝ).r 0
      = b * rf2 a b := by
    show (if 2 - 1 - 0 = 0 then a else b) * rf2 a b = b * rf2 a b
    norm_num
  have hr1 : (loadedP2er a b er : Pruner ℝ).r 1
      = a * rf2 a b := by
    show (if 2 - 1 - 1 = 0 then a else b) * rf2 a b = a * rf2 a b
    norm_num
  have hpv0 : (loadedP2er a b er : Pruner ℝ).pv 0
      = Real.sqrt (b * rf2 a b) := by
    show ∏ i ∈ Finset.range 1, Real.sqrt ((if 2 - 1 - i = 0 then a else b) * rf2 a b)
        = Real.sqrt (b * rf2 a b)
    rw [Finset.prod_range_one]
    norm_num
  -- the product of the two renormalized norms is exactly 1
  have hprod : (b * rf2 a b) * (a * rf2 a b) = 1 := by
    have : rf2 a b * rf2 a b = Real.exp (-(Real.log b + Real.log a)) := by
      rw [rf2, ← Real.exp_add]
      congr 1
      ring
    calc (b * rf2 a b) * (a * rf2 a b)
        = (b * a) * (rf2 a b * rf2 a b) := by ring
      _ = (b * a) * Real.exp (-(Real.log b + Real.log a)) := by rw [this]
      _ = (b * a) * ((Real.exp (Real.log b) * Real.exp (Real.log a))⁻¹) := by
          rw [Real.exp_neg, Real.exp_add]
      _ = (b * a) * ((b * a)⁻¹) := by rw [Real.exp_log hb, Real.exp_log ha]
      _ = 1 := mul_inv_cancel₀ (by positivity)
  have hpv1 : (loadedP2er a b er : Pruner ℝ).pv 1 = 1 := by
    show ∏ i ∈ Finset.range 2, Real.sqrt ((if 2 - 1 - i = 0 then a else b) * rf2 a b) = 1
    rw [Finset.prod_range_succ, Finset.prod_range_one]
    norm_num
    rw [← Real.sqrt_mul (by positivity) (a * rf2 a b), hprod, Real.sqrt_one]
  have hbv : (loadedP2er a b er : Pruner ℝ).tabulated_ball_vol
      = ballVol := rfl
  have hsym : (loadedP2er a b er : Pruner ℝ).symmetry_factor
      = 2 := rfl
  have hrad : (loadedP2er a b er : Pruner ℝ).enumeration_radius
      = er := rfl
  have hrfeq :
      (loadedP2er a b er : Pruner ℝ).renormalization_factor
      = rf2 a b := rfl
  have hsq : Real.sqrt (er * rf2 a b) ^ 2 = er * rf2 a b :=
    Real.sq_sqrt (by positivity)
  norm_num [hrv1, hr0, hpv0, hpv1, hbv, hsym, hrad, hrfeq, ballVol_one, ballVol_two,
    realOps, List.getD, hsq]

/-- C3 (amended): for `n = 2`, positive raw norms `[a, b]` and a feasible
input (`pr 1 ≥ 1`, so the extracted compact vector is `[1]`), the cost
is `(√(er·rf)·ubv[1]/√r[0] + er·rf·ubv[2]) / symmetry_factor`: the
code's sum runs over `2d = 2` levels; the claim's single term is only
the first level, and the second level contributes `er·rf·ubv[2]/pv[1]`
with `pv[1] = √(r[0]·r[1]) = 1` after renormalization. -/
theorem claim_C3_cost_n2 (a b er : ℝ) (pr : Nat → ℝ)
    (ha : 0 < a) (hb : 0 < b) (her : 0 ≤ er) (hpr : 1 ≤ pr 1) :
    load_basis_shape realOps (mkPruner realOps (factTable ℝ) ballVol) 2
        (fun i => if i = 0 then a else b) = some (loadedP2 a b)
    ∧ get_enum_cost realOps (loadedP2er a b er) pr
        = .ok ((Real.sqrt (er * (loadedP2 a b).renormalization_factor) * ballVol 1
            / Real.sqrt ((loadedP2 a b).r 0)
            + er * (loadedP2 a b).renormalization_factor * ballVol 2)
            / (loadedP2 a b).symmetry_factor) := by
  refine ⟨load2_eq a b, ?_⟩
  rw [cost_n2_eval a b er pr ha hb her hpr, ballVol_one, ballVol_two]
  rfl

/-- Witness for C3's amended statement at `a = b = er = 1`, `pr ≡ 1`. -/
theorem claim_C3_witness :
    load_basis_shape realOps (mkPruner realOps (factTable ℝ) ballVol) 2
        (fun i => if i = 0 then (1 : ℝ) else 1) = some (loadedP2 1 1)
    ∧ get_enum_cost realOps (loadedP2er 1 1 1) (fun _ => 1)
        = .ok ((Real.sqrt (1 * (loadedP2 1 1).renormalization_factor) * ballVol 1
            / Real.sqrt ((loadedP2 1 1).r 0)
            + 1 * (loadedP2 1 1).renormalization_factor * ballVol 2)
            / (loadedP2 1 1).symmetry_factor) :=
  claim_C3_cost_n2 1 1 1 (fun _ => 1) one_pos one_pos zero_le_one le_rfl

/-- Counterexample to C3 as stated: at `r_raw = [1, 1]`, radius 1 and
`pr ≡ 1`, the claim's value `2·√(er·rf)·ubv[1]/√r[0] / symmetry_factor`
equals 2, but `get_enum_cost` returns `(2 + π)/2 ≠ 2`. -/
theorem claim_C3_counterexample :
    load_basis_shape realOps (mkPruner realOps (factTable ℝ) ballVol) 2
        (fun i => if i = 0 then (1 : ℝ) else 1) = some (loadedP2 1 1)
    ∧ get_enum_cost realOps (loadedP2er 1 1 1) (fun _ => 1)
        = .ok ((2 + Real.pi) / 2)
    ∧ get_enum_cost realOps (loadedP2er 1 1 1) (fun _ => 1)
        ≠ .ok (2 * Real.sqrt (1 * (loadedP2 1 1).renormalization_factor) * ballVol 1
            / Real.sqrt ((loadedP2 1 1).r 0) / (loadedP2 1 1).symmetry_factor) := by
  have hrf : rf2 1 1 = 1 := by
    rw [rf2, Real.log_one]
    norm_num [Real.exp_zero]
  have heval : get_enum_cost realOps (loadedP2er 1 1 1) (fun _ => 1)
      = .ok ((2 + Real.pi) / 2) := by
    rw [cost_n2_eval 1 1 1 (fun _ => 1) one_pos one_pos zero_le_one le_rfl, hrf]
    norm_num [Real.sqrt_one]
  have h1 : (loadedP2 1 1).renormalization_factor = 1 := by
    rw [show (loadedP2 1 1).renormalization_factor = rf2 1 1 from rfl]
    exact hrf
  have h2 : (loadedP2 1 1).r 0 = 1 := by
    rw [show (loadedP2 1 1).r 0 = (if 2 - 1 - 0 = 0 then (1 : ℝ) else 1) * rf2 1 1 from rfl,
      hrf]
    norm_num
  have h3 : (loadedP2 1 1).symmetry_factor = 2 := rfl
  have hval : 2 * Real.sqrt (1 * (loadedP2 1 1).renormalization_factor) * ballVol 1
      / Real.sqrt ((loadedP2 1 1).r 0) / (loadedP2 1 1).symmetry_factor = 2 := by
    rw [h1, h2, h3, ballVol_one]
    norm_num [Real.sqrt_one]
  refine ⟨load2_eq 1 1, heval, ?_⟩
  rw [heval, hval]
  intro h
  injection h with h'
  have hpi := Real.pi_gt_three
  have hcontra : Real.pi = 2 := by linarith
  linarith

end PrunerSpec
